import Mathlib

/-!
Shallow embedding of `src/src/rounding_hashing.cpp` (`rounding_hashing_thinning`
and its helpers) from the GeoThinneR repository.

Modelling conventions:
* Machine `double` values are modelled as exact rationals (`ℚ`); `int` as `ℤ`,
  sizes and indices as `ℕ`.
* `haversineDistance` and `euclideanDistance` use transcendental functions
  (`sin`, `cos`, `atan2`, `sqrt`) with no exact executable counterpart, and the
  algorithmic claims are parametric in the distance values, so the two distance
  functions are passed in as an oracle record `DistOracles`.  The string
  dispatch between them (lines 92-98 of the source) is embedded literally.
* The `std::mt19937` generator seeded at line 55 and the `std::shuffle` at
  line 66 only ever produce, per trial, a list of grid-cell keys to visit.
  That per-trial visitation order is abstracted as a function
  `orders : ℕ → List (ℤ × ℤ)` (trial index to cell list); theorems quantify
  over all such functions, which covers every seed.  `rhSeeded` recovers the
  seed-to-orders dependency as a deterministic function of the seed.
* The `std::unordered_map<std::string, std::vector<int>>` grid keyed by
  `to_string(lon) ++ "_" ++ to_string(lat)` (an injective encoding of the pair
  of rounded integers) is modelled as an association list keyed by `ℤ × ℤ`.
* The C++ function signals no error on any path; its result is wrapped in
  `Except String` (always `.ok`) so that claims about error behaviour can be
  stated.
-/

set_option maxHeartbeats 1000000

namespace GeoThinneR

/-- `std::round` as used at lines 44-45 and 82-83 of the source: round half
away from zero (the cast `static_cast<int>` is absorbed into the `ℤ` result;
overflow of `int` is out of scope). -/
def cround (x : ℚ) : ℤ :=
  if 0 ≤ x then ⌊x + 1 / 2⌋ else -⌊-x + 1 / 2⌋

/-- Grid cell key of a coordinate pair at grid precision `pr`
(lines 44-46: `round(lon / precision)`, `round(lat / precision)`). -/
def cellKey (pr : ℚ) (p : ℚ × ℚ) : ℤ × ℤ :=
  (cround (p.1 / pr), cround (p.2 / pr))

/-- The spatial hash grid: association list from cell key to the bucket of
point indices (line 40 of the source). -/
abbrev Grid := List ((ℤ × ℤ) × List ℕ)

/-- `grid[grid_cell].push_back(i)` (line 47): append `i` to the bucket of key
`k`, creating the bucket if absent. -/
def gridInsert (g : Grid) (k : ℤ × ℤ) (i : ℕ) : Grid :=
  match g with
  | [] => [(k, [i])]
  | (k0, b) :: rest =>
    if k0 = k then (k0, b ++ [i]) :: rest else (k0, b) :: gridInsert rest k i

/-- Bucket lookup `grid[cell]` for a key known to be present; absent keys give
the empty bucket. -/
def gridLookup (g : Grid) (k : ℤ × ℤ) : List ℕ :=
  match g with
  | [] => []
  | (k0, b) :: rest => if k0 = k then b else gridLookup rest k

/-- `grid.find(cell) != grid.end()` (line 86): key presence in the map. -/
def gridHas (g : Grid) (k : ℤ × ℤ) : Bool :=
  match g with
  | [] => false
  | (k0, _) :: rest => decide (k0 = k) || gridHas rest k

/-- The grid-population loop (lines 43-48): insert indices `0, …, n-1` in
order, each into the bucket of its cell key. -/
def buildGrid (keyf : ℕ → ℤ × ℤ) (n : ℕ) : Grid :=
  (List.range n).foldl (fun g i => gridInsert g (keyf i) i) []

/-- `precision = thin_dist / 111.32` (line 37); computed from the thinning
distance alone, with no dependence on the selected metric. -/
def precisionOf (thin_dist : ℚ) : ℚ :=
  thin_dist / (11132 / 100)

/-- Cell key of point `i` of the coordinate list (column 0 is `lon`,
column 1 is `lat`). -/
def keyfOf (coords : List (ℚ × ℚ)) (thin_dist : ℚ) (i : ℕ) : ℤ × ℤ :=
  cellKey (precisionOf thin_dist) (coords.getD i ((0 : ℚ), (0 : ℚ)))

/-- The grid built by `rounding_hashing_thinning` before the trial loop
(lines 37-48); it depends only on the coordinates and `thin_dist`. -/
def theGrid (coords : List (ℚ × ℚ)) (thin_dist : ℚ) : Grid :=
  buildGrid (keyfOf coords thin_dist) coords.length

/-- The inputs of `rounding_hashing_thinning` after the `Rcpp::as`
conversions (lines 28-34), in source order. -/
structure ThinInput where
  coords : List (ℚ × ℚ)
  thin_dist : ℚ
  trials : ℤ
  all_trials : Bool
  distance_metric : String
  R : ℚ
  seed : ℤ

/-- The two distance helpers (lines 10-25).  Their bodies use `sin`, `cos`,
`atan2`, `sqrt` over `double`, which have no exact executable embedding; the
claims are parametric in the distance values, so the helpers are oracle
parameters: `hav lon1 lat1 lon2 lat2 R` and `eucl lon1 lat1 lon2 lat2`. -/
structure DistOracles where
  hav : ℚ → ℚ → ℚ → ℚ → ℚ → ℚ
  eucl : ℚ → ℚ → ℚ → ℚ → ℚ

/-- `coordinates(i, 0)` — longitude of point `i`. -/
def lonOf (coords : List (ℚ × ℚ)) (i : ℕ) : ℚ :=
  (coords.getD i ((0 : ℚ), (0 : ℚ))).1

/-- `coordinates(i, 1)` — latitude of point `i`. -/
def latOf (coords : List (ℚ × ℚ)) (i : ℕ) : ℚ :=
  (coords.getD i ((0 : ℚ), (0 : ℚ))).2

/-- Metric dispatch (lines 93-98): `haversineDistance` when the metric string
equals `"haversine"`, otherwise `euclideanDistance`. -/
def distanceOf (orc : DistOracles) (inp : ThinInput) (p1 p2 : ℕ) : ℚ :=
  if inp.distance_metric = "haversine" then
    orc.hav (lonOf inp.coords p1) (latOf inp.coords p1)
      (lonOf inp.coords p2) (latOf inp.coords p2) inp.R
  else
    orc.eucl (lonOf inp.coords p1) (latOf inp.coords p1)
      (lonOf inp.coords p2) (latOf inp.coords p2)

/-- The suppression test `distance <= thin_dist` (line 101). -/
def closeOf (orc : DistOracles) (inp : ThinInput) (p1 p2 : ℕ) : Bool :=
  decide (distanceOf orc inp p1 p2 ≤ inp.thin_dist)

/-- `Rcpp::sum` over a logical vector (line 113): the number of `true`
entries. -/
def countTrue : List Bool → ℕ
  | [] => 0
  | b :: m => (if b then 1 else 0) + countTrue m

/-- The 3×3 neighborhood offsets `(lon_offset, lat_offset)` in the order the
two nested loops of lines 80-81 produce them (`lat_offset` outer). -/
def neighborOffsets : List (ℤ × ℤ) :=
  [(-1, -1), (0, -1), (1, -1), (-1, 0), (0, 0), (1, 0), (-1, 1), (0, 1), (1, 1)]

/-- The inner loop over a neighbor bucket (lines 87-105): each still-retained
`p2 ≠ p1` whose distance to `p1` passes the suppression test is marked not
retained. -/
def suppressScan (close : ℕ → ℕ → Bool) (p1 : ℕ) (mask : List Bool)
    (p2s : List ℕ) : List Bool :=
  p2s.foldl (fun m p2 =>
    if p2 ≠ p1 ∧ m.getD p2 false = true then
      (if close p1 p2 then m.set p2 false else m)
    else m) mask

/-- Processing of one retained point `p1` (lines 76-108): recompute its cell
key `k1` and scan the buckets of the nine neighboring cells that exist in the
grid. -/
def processP1 (g : Grid) (close : ℕ → ℕ → Bool) (k1 : ℤ × ℤ) (p1 : ℕ)
    (mask : List Bool) : List Bool :=
  neighborOffsets.foldl (fun m off =>
    if gridHas g (k1.1 + off.1, k1.2 + off.2) then
      suppressScan close p1 m (gridLookup g (k1.1 + off.1, k1.2 + off.2))
    else m) mask

/-- Processing of one grid cell (lines 70-109): visit its bucket in stored
order, skipping points already marked not retained. -/
def processCell (g : Grid) (close : ℕ → ℕ → Bool) (keyf : ℕ → ℤ × ℤ)
    (mask : List Bool) (cell : ℤ × ℤ) : List Bool :=
  (gridLookup g cell).foldl (fun m p1 =>
    if m.getD p1 false = true then processP1 g close (keyf p1) p1 m else m) mask

/-- One trial pass (lines 69-110): visit the given cells in order, threading
the working mask. -/
def trialPass (g : Grid) (close : ℕ → ℕ → Bool) (keyf : ℕ → ℤ × ℤ)
    (order : List (ℤ × ℤ)) (mask : List Bool) : List Bool :=
  order.foldl (processCell g close keyf) mask

/-- The selector loop state: `keep_points` (line 50), `best_size` (line 51)
and `all_keep_points` (line 52). -/
structure SelState where
  keep : List Bool
  bestSize : ℕ
  allMasks : List (List Bool)

/-- One iteration of the trial loop (lines 58-123): run a pass starting from
the current `keep_points`, replace the best on strict improvement, and append
the trial's mask when `all_trials` is set. -/
def selStep (g : Grid) (close : ℕ → ℕ → Bool) (keyf : ℕ → ℤ × ℤ)
    (collectAll : Bool) (orders : ℕ → List (ℤ × ℤ)) (st : SelState) (t : ℕ) :
    SelState :=
  let m := trialPass g close keyf (orders t) st.keep
  let c := countTrue m
  { keep := if st.bestSize < c then m else st.keep
    bestSize := if st.bestSize < c then c else st.bestSize
    allMasks := if collectAll then st.allMasks ++ [m] else st.allMasks }

/-- The whole trial loop, starting from the all-retained mask of length `n`
and `best_size = 0` (lines 50-51), run for `tcount` trials. -/
def selLoop (g : Grid) (close : ℕ → ℕ → Bool) (keyf : ℕ → ℤ × ℤ)
    (collectAll : Bool) (orders : ℕ → List (ℤ × ℤ)) (n : ℕ) (tcount : ℕ) :
    SelState :=
  (List.range tcount).foldl (selStep g close keyf collectAll orders)
    ⟨List.replicate n true, 0, []⟩

/-- Body of `rounding_hashing_thinning` after the metric has been resolved to
a suppression test `close`: build the grid, run the trials, return either all
per-trial masks or the single best mask wrapped in a one-element list
(lines 36-130).  The C++ signals no error on any path, so the result is
always `.ok`. -/
def rhCore (close : ℕ → ℕ → Bool) (orders : ℕ → List (ℤ × ℤ))
    (coords : List (ℚ × ℚ)) (thin_dist : ℚ) (trials : ℤ) (collectAll : Bool) :
    Except String (List (List Bool)) :=
  let fin := selLoop (theGrid coords thin_dist) close (keyfOf coords thin_dist)
    collectAll orders coords.length trials.toNat
  .ok (if collectAll then fin.allMasks else [fin.keep])

/-- `rounding_hashing_thinning` (lines 27-131), with the distance helpers
abstracted as `orc` and the per-trial shuffled cell orders as `orders`. -/
def rounding_hashing_thinning (orc : DistOracles)
    (orders : ℕ → List (ℤ × ℤ)) (inp : ThinInput) :
    Except String (List (List Bool)) :=
  rhCore (closeOf orc inp) orders inp.coords inp.thin_dist inp.trials
    inp.all_trials

/-- The operation with the per-trial cell orders produced, as in the source
(lines 54-66), by a deterministic generator `shuffle` of the seed alone. -/
def rhSeeded (shuffle : ℤ → ℕ → List (ℤ × ℤ)) (orc : DistOracles)
    (inp : ThinInput) : Except String (List (List Bool)) :=
  rounding_hashing_thinning orc (shuffle inp.seed) inp

/-- The first trial's output mask, started (as at lines 50 and 59, first
iteration) from the all-retained mask. -/
def firstTrial (orc : DistOracles) (orders : ℕ → List (ℤ × ℤ))
    (inp : ThinInput) : List Bool :=
  trialPass (theGrid inp.coords inp.thin_dist) (closeOf orc inp)
    (keyfOf inp.coords inp.thin_dist) (orders 0)
    (List.replicate inp.coords.length true)

/-- `MaskLe m2 m1`: every point retained in `m2` is retained in `m1` (the
pass only ever clears entries, never sets them). -/
def MaskLe (m2 m1 : List Bool) : Prop :=
  ∀ i, m2.getD i false = true → m1.getD i false = true

/-- `HasTrue m`: at least one point of the mask is retained. -/
def HasTrue (m : List Bool) : Prop := ∃ i, m.getD i false = true

def c1orc : DistOracles := ⟨fun _ _ _ _ _ => 0, fun _ _ _ _ => 0⟩

def c1inp : ThinInput := ⟨[((0 : ℚ), (0 : ℚ))], 1, 2, false, "m", 1, 0⟩

def c1orders : ℕ → List (ℤ × ℤ) := fun _ => [(0, 0)]

def c7orc : DistOracles := ⟨fun _ _ _ _ _ => 9, fun _ _ _ _ => 9⟩

def c7inp : ThinInput :=
  ⟨[((0 : ℚ), (0 : ℚ)), ((5 : ℚ), (5 : ℚ))], 1, 3, false, "euclidean", 6371, 0⟩

def c7orders : ℕ → List (ℤ × ℤ) := fun _ => [(0, 0), (50, 50)]

def c3orc : DistOracles := ⟨fun _ _ _ _ _ => 0, fun _ _ _ _ => 0⟩

def c3inp : ThinInput :=
  ⟨[((0 : ℚ), (0 : ℚ))], 1, 1, false, "manhattan", 6371, 42⟩

def c3orders : ℕ → List (ℤ × ℤ) := fun _ => []

def c4orc : DistOracles := ⟨fun _ _ _ _ _ => 0, fun _ _ _ _ => 0⟩

def c4inp : ThinInput := ⟨[((0 : ℚ), (0 : ℚ))], -1, 0, false, "haversine", -5, 7⟩

def c4orders : ℕ → List (ℤ × ℤ) := fun _ => [(0, 0)]

def c9orc : DistOracles := ⟨fun _ _ _ _ _ => 0, fun _ _ _ _ => 0⟩

def c9inp : ThinInput := ⟨[((0 : ℚ), (0 : ℚ))], 1, 1, true, "x", 1, 0⟩

def c9orders : ℕ → List (ℤ × ℤ) := fun _ => []

def c10orc : DistOracles := ⟨fun _ _ _ _ _ => 0, fun _ _ _ _ => 0⟩

def c10inp : ThinInput := ⟨[((0 : ℚ), (0 : ℚ))], 1, 2, false, "haversine", 1, 0⟩

def c10orders : ℕ → List (ℤ × ℤ) := fun _ => []

/-! ### Generic fold invariants -/

/-- A predicate preserved by every step of a left fold holds of the result. -/
theorem foldl_pres {α β : Type} (P : α → Prop) (f : α → β → α) :
    ∀ (l : List β) (a : α), P a → (∀ x b, b ∈ l → P x → P (f x b)) →
    P (l.foldl f a) := by
  intro l
  induction l with
  | nil => intro a ha _; exact ha
  | cons b t ih =>
    intro a ha hstep
    exact ih (f a b) (hstep a b (List.mem_cons_self b t) ha)
      (fun x c hc hx => hstep x c (List.mem_cons_of_mem b hc) hx)

/-- A left fold whose step fixes the accumulator on every element returns the
initial accumulator. -/
theorem foldl_eq_self {α β : Type} (f : α → β → α) :
    ∀ (l : List β) (a : α), (∀ x b, b ∈ l → f x b = x) → l.foldl f a = a := by
  intro l
  induction l with
  | nil => intro a _; rfl
  | cons b t ih =>
    intro a hfix
    rw [List.foldl_cons, hfix a b (List.mem_cons_self b t)]
    exact ih a (fun x c hc => hfix x c (List.mem_cons_of_mem b hc))

/-! ### Mask lemmas -/

/-- Setting one entry leaves every other position of a mask unchanged. -/
theorem getD_set_of_ne :
    ∀ (m : List Bool) (p i : ℕ) (v : Bool), p ≠ i →
    (m.set p v).getD i false = m.getD i false := by
  intro m
  induction m with
  | nil => intro p i v _; rfl
  | cons b t ih =>
    intro p i v hne
    match p, i with
    | 0, 0 => exact absurd rfl hne
    | 0, j + 1 => simp [List.set]
    | q + 1, 0 => simp [List.set]
    | q + 1, j + 1 =>
      simp only [List.set, List.getD_cons_succ]
      exact ih q j v (fun h => hne (by rw [h]))

/-- A position that reads `true` after an entry was forced to `false` already
read `true` before. -/
theorem getD_set_false_imp :
    ∀ (m : List Bool) (p i : ℕ),
    (m.set p false).getD i false = true → m.getD i false = true := by
  intro m
  induction m with
  | nil => intro p i h; exact h
  | cons b t ih =>
    intro p i h
    match p, i with
    | 0, 0 => simp [List.set] at h
    | 0, j + 1 => simpa [List.set] using h
    | q + 1, 0 => simpa [List.set] using h
    | q + 1, j + 1 =>
      simp only [List.set, List.getD_cons_succ] at h ⊢
      exact ih q j h

theorem maskLe_refl (m : List Bool) : MaskLe m m := fun _ h => h

theorem maskLe_trans {m3 m2 m1 : List Bool} (h32 : MaskLe m3 m2)
    (h21 : MaskLe m2 m1) : MaskLe m3 m1 := fun i h => h21 i (h32 i h)

theorem maskLe_set_false (m : List Bool) (p : ℕ) : MaskLe (m.set p false) m :=
  fun i h => getD_set_false_imp m p i h

/-- A fold whose every step is `MaskLe`-decreasing is `MaskLe`-decreasing. -/
theorem maskLe_foldl {β : Type} (f : List Bool → β → List Bool)
    (h : ∀ x b, MaskLe (f x b) x) (l : List β) (m : List Bool) :
    MaskLe (l.foldl f m) m :=
  foldl_pres (fun x => MaskLe x m) f l m (maskLe_refl m)
    (fun x b _ hx => maskLe_trans (h x b) hx)

theorem maskLe_suppressScan (close : ℕ → ℕ → Bool) (p1 : ℕ) (m : List Bool)
    (p2s : List ℕ) : MaskLe (suppressScan close p1 m p2s) m := by
  refine maskLe_foldl _ (fun x b => ?_) p2s m
  dsimp only
  split
  · split
    · exact maskLe_set_false x b
    · exact maskLe_refl x
  · exact maskLe_refl x

theorem maskLe_processP1 (g : Grid) (close : ℕ → ℕ → Bool) (k1 : ℤ × ℤ)
    (p1 : ℕ) (m : List Bool) : MaskLe (processP1 g close k1 p1 m) m := by
  refine maskLe_foldl _ (fun x b => ?_) neighborOffsets m
  dsimp only
  split
  · exact maskLe_suppressScan close p1 x
      (gridLookup g (k1.1 + b.1, k1.2 + b.2))
  · exact maskLe_refl x

theorem maskLe_processCell (g : Grid) (close : ℕ → ℕ → Bool)
    (keyf : ℕ → ℤ × ℤ) (m : List Bool) (cell : ℤ × ℤ) :
    MaskLe (processCell g close keyf m cell) m := by
  refine maskLe_foldl _ (fun x b => ?_) (gridLookup g cell) m
  dsimp only
  split
  · exact maskLe_processP1 g close (keyf b) b x
  · exact maskLe_refl x

theorem maskLe_trialPass (g : Grid) (close : ℕ → ℕ → Bool)
    (keyf : ℕ → ℤ × ℤ) (order : List (ℤ × ℤ)) (m : List Bool) :
    MaskLe (trialPass g close keyf order m) m :=
  maskLe_foldl _ (fun x b => maskLe_processCell g close keyf x b) order m

/-! ### Length preservation -/

theorem length_foldl {β : Type} (f : List Bool → β → List Bool)
    (h : ∀ x b, (f x b).length = x.length) (l : List β) (m : List Bool) :
    (l.foldl f m).length = m.length :=
  foldl_pres (fun x => x.length = m.length) f l m rfl
    (fun x b _ hx => (h x b).trans hx)

theorem length_suppressScan (close : ℕ → ℕ → Bool) (p1 : ℕ) (m : List Bool)
    (p2s : List ℕ) : (suppressScan close p1 m p2s).length = m.length := by
  refine length_foldl _ (fun x b => ?_) p2s m
  dsimp only
  split
  · split
    · exact List.length_set x b false
    · rfl
  · rfl

theorem length_processP1 (g : Grid) (close : ℕ → ℕ → Bool) (k1 : ℤ × ℤ)
    (p1 : ℕ) (m : List Bool) : (processP1 g close k1 p1 m).length = m.length := by
  refine length_foldl _ (fun x b => ?_) neighborOffsets m
  dsimp only
  split
  · exact length_suppressScan close p1 x
      (gridLookup g (k1.1 + b.1, k1.2 + b.2))
  · rfl

theorem length_processCell (g : Grid) (close : ℕ → ℕ → Bool)
    (keyf : ℕ → ℤ × ℤ) (m : List Bool) (cell : ℤ × ℤ) :
    (processCell g close keyf m cell).length = m.length := by
  refine length_foldl _ (fun x b => ?_) (gridLookup g cell) m
  dsimp only
  split
  · exact length_processP1 g close (keyf b) b x
  · rfl

theorem length_trialPass (g : Grid) (close : ℕ → ℕ → Bool)
    (keyf : ℕ → ℤ × ℤ) (order : List (ℤ × ℤ)) (m : List Bool) :
    (trialPass g close keyf order m).length = m.length :=
  length_foldl _ (fun x b => length_processCell g close keyf x b) order m

/-! ### Retained-count lemmas -/

/-- A pointwise-dominated mask of the same length has no more `true`
entries. -/
theorem countTrue_le :
    ∀ (m2 m1 : List Bool), m2.length = m1.length → MaskLe m2 m1 →
    countTrue m2 ≤ countTrue m1 := by
  intro m2
  induction m2 with
  | nil => intro m1 _ _; exact Nat.zero_le _
  | cons a t2 ih =>
    intro m1 hlen h
    match m1 with
    | [] => exact absurd hlen (by simp)
    | b :: t1 =>
      have htail : MaskLe t2 t1 := by
        intro i hi
        have := h (i + 1) (by simpa using hi)
        simpa using this
      have hlen' : t2.length = t1.length := by simpa using hlen
      have hrec := ih t1 hlen' htail
      match a with
      | true =>
        have hb : b = true := by
          have := h 0 (by simp)
          simpa using this
        simp [countTrue, hb]
        omega
      | false =>
        simp [countTrue]
        cases b <;> simp <;> omega

theorem countTrue_pos_iff : ∀ (m : List Bool), 1 ≤ countTrue m ↔ HasTrue m := by
  intro m
  induction m with
  | nil =>
    constructor
    · intro h; exact absurd h (by simp [countTrue])
    · intro ⟨i, hi⟩; exact absurd hi (by simp)
  | cons b t ih =>
    match b with
    | true =>
      constructor
      · intro _; exact ⟨0, by simp⟩
      · intro _; simp [countTrue]
    | false =>
      constructor
      · intro h
        have ht : 1 ≤ countTrue t := by simpa [countTrue] using h
        obtain ⟨i, hi⟩ := (ih).mp ht
        exact ⟨i + 1, by simpa using hi⟩
      · intro ⟨i, hi⟩
        match i with
        | 0 => exact absurd hi (by simp)
        | j + 1 =>
          have : HasTrue t := ⟨j, by simpa using hi⟩
          have := (ih).mpr this
          simpa [countTrue] using this

/-- The first entry of the all-retained mask of positive length is `true`. -/
theorem getD_replicate_true (n : ℕ) (h : 1 ≤ n) :
    (List.replicate n true).getD 0 false = true := by
  match n with
  | 0 => omega
  | k + 1 => simp [List.replicate]

/-! ### The suppressing point survives its own scan -/

/-- A neighbor-bucket scan on behalf of `p1` never changes `p1`'s own
entry: every suppression targets some `p2 ≠ p1`. -/
theorem getD_suppressScan_p1 (close : ℕ → ℕ → Bool) (p1 : ℕ) (m : List Bool)
    (p2s : List ℕ) :
    (suppressScan close p1 m p2s).getD p1 false = m.getD p1 false := by
  refine foldl_pres (fun x => x.getD p1 false = m.getD p1 false) _ p2s m rfl
    (fun x b _ hx => ?_)
  dsimp only
  split
  · rename_i hcond
    split
    · rw [getD_set_of_ne x b p1 false hcond.1, hx]
    · exact hx
  · exact hx

/-- The whole 3×3 neighborhood scan on behalf of `p1` never changes `p1`'s
own entry. -/
theorem getD_processP1_p1 (g : Grid) (close : ℕ → ℕ → Bool) (k1 : ℤ × ℤ)
    (p1 : ℕ) (m : List Bool) :
    (processP1 g close k1 p1 m).getD p1 false = m.getD p1 false := by
  refine foldl_pres (fun x => x.getD p1 false = m.getD p1 false) _
    neighborOffsets m rfl (fun x b _ hx => ?_)
  dsimp only
  split
  · rw [getD_suppressScan_p1, hx]
  · exact hx

/-- Processing one cell keeps at least one point retained: each visited `p1`
is retained when its scan starts and its own entry is untouched by the
scan. -/
theorem hasTrue_processCell (g : Grid) (close : ℕ → ℕ → Bool)
    (keyf : ℕ → ℤ × ℤ) (m : List Bool) (cell : ℤ × ℤ) (h : HasTrue m) :
    HasTrue (processCell g close keyf m cell) := by
  refine foldl_pres HasTrue _ (gridLookup g cell) m h (fun x b _ hx => ?_)
  dsimp only
  split
  · rename_i hb
    exact ⟨b, by rw [getD_processP1_p1]; exact hb⟩
  · exact hx

/-- A trial pass keeps at least one point retained when it starts with one. -/
theorem hasTrue_trialPass (g : Grid) (close : ℕ → ℕ → Bool)
    (keyf : ℕ → ℤ × ℤ) (order : List (ℤ × ℤ)) (m : List Bool)
    (h : HasTrue m) : HasTrue (trialPass g close keyf order m) :=
  foldl_pres HasTrue _ order m h
    (fun x b _ hx => hasTrue_processCell g close keyf x b hx)

/-! ### Grid characterization -/

/-- Effect of one insertion on a bucket: the inserted index lands at the end
of its own key's bucket and every other bucket is unchanged. -/
theorem gridLookup_gridInsert :
    ∀ (g : Grid) (k0 k : ℤ × ℤ) (i : ℕ),
    gridLookup (gridInsert g k0 i) k
      = gridLookup g k ++ (if k0 = k then [i] else []) := by
  intro g
  induction g with
  | nil =>
    intro k0 k i
    by_cases h : k0 = k <;> simp [gridInsert, gridLookup, h]
  | cons e rest ih =>
    intro k0 k i
    obtain ⟨k1, b⟩ := e
    by_cases h1 : k1 = k0
    · by_cases h2 : k1 = k
      · have hk : k0 = k := h1 ▸ h2
        simp [gridInsert, gridLookup, h1, h2, hk]
      · have hk : ¬k0 = k := fun hc => h2 (h1.trans hc)
        simp [gridInsert, gridLookup, h1, h2, hk]
    · by_cases h2 : k1 = k
      · have hk : ¬k0 = k := fun hc => h1 (h2.trans hc.symm)
        have hk2 : ¬k = k0 := fun hc => hk hc.symm
        simp [gridInsert, gridLookup, h1, h2, hk, hk2]
      · simp [gridInsert, gridLookup, h1, h2, ih]

/-- Bucket contents of the insertion fold: the indices with the bucket's key,
appended in processing order. -/
theorem gridLookup_insert_foldl (keyf : ℕ → ℤ × ℤ) :
    ∀ (idxs : List ℕ) (g : Grid) (k : ℤ × ℤ),
    gridLookup (idxs.foldl (fun g i => gridInsert g (keyf i) i) g) k
      = gridLookup g k ++ idxs.filter (fun i => decide (keyf i = k)) := by
  intro idxs
  induction idxs with
  | nil => intro g k; simp
  | cons i t ih =>
    intro g k
    rw [List.foldl_cons, ih, gridLookup_gridInsert, List.filter_cons]
    by_cases h : keyf i = k <;> simp [h]

/-- Bucket contents of the built grid: exactly the point indices whose cell
key is the bucket's key, in increasing index order. -/
theorem gridLookup_buildGrid (keyf : ℕ → ℤ × ℤ) (n : ℕ) (k : ℤ × ℤ) :
    gridLookup (buildGrid keyf n) k
      = (List.range n).filter (fun i => decide (keyf i = k)) := by
  unfold buildGrid
  rw [gridLookup_insert_foldl]
  simp [gridLookup]

/-- Every index stored in a bucket of the built grid is a valid point
index. -/
theorem mem_gridLookup_lt (keyf : ℕ → ℤ × ℤ) (n : ℕ) (k : ℤ × ℤ) (i : ℕ)
    (h : i ∈ gridLookup (buildGrid keyf n) k) : i < n := by
  rw [gridLookup_buildGrid] at h
  exact List.mem_range.mp (List.mem_filter.mp h).1

/-! ### Selector loop invariants -/

/-- A property of masks that holds of the all-retained mask and is preserved
by every trial pass holds of the final `keep_points` and of every recorded
per-trial mask. -/
theorem selLoop_inv (g : Grid) (close : ℕ → ℕ → Bool) (keyf : ℕ → ℤ × ℤ)
    (collectAll : Bool) (orders : ℕ → List (ℤ × ℤ)) (n tcount : ℕ)
    (P : List Bool → Prop) (hinit : P (List.replicate n true))
    (hstep : ∀ m order, P m → P (trialPass g close keyf order m)) :
    P (selLoop g close keyf collectAll orders n tcount).keep ∧
    ∀ m ∈ (selLoop g close keyf collectAll orders n tcount).allMasks, P m := by
  unfold selLoop
  refine foldl_pres (fun (st : SelState) => P st.keep ∧ ∀ m ∈ st.allMasks, P m)
    _ (List.range tcount) _ ⟨hinit, by simp⟩ (fun st t _ hst => ?_)
  obtain ⟨hk, ha⟩ := hst
  constructor
  · show P (if st.bestSize < countTrue (trialPass g close keyf (orders t) st.keep)
      then trialPass g close keyf (orders t) st.keep else st.keep)
    split
    · exact hstep st.keep (orders t) hk
    · exact hk
  · intro m hm
    have hm' : m ∈ (if collectAll then
        st.allMasks ++ [trialPass g close keyf (orders t) st.keep]
        else st.allMasks) := hm
    match collectAll with
    | false => exact ha m hm'
    | true =>
      rcases List.mem_append.mp hm' with h | h
      · exact ha m h
      · rw [List.mem_singleton.mp h]
        exact hstep st.keep (orders t) hk

/-- With an empty grid a trial pass is the identity on the working mask. -/
theorem trialPass_nil (close : ℕ → ℕ → Bool) (keyf : ℕ → ℤ × ℤ)
    (order : List (ℤ × ℤ)) (m : List Bool) :
    trialPass [] close keyf order m = m :=
  foldl_eq_self _ order m (fun _ _ _ => rfl)

/-- Closed form of the trial loop on an empty point set: the kept mask stays
empty, no trial improves the best, and one empty mask is recorded per trial
when requested. -/
theorem selLoop_nil (close : ℕ → ℕ → Bool) (keyf : ℕ → ℤ × ℤ)
    (collectAll : Bool) (orders : ℕ → List (ℤ × ℤ)) :
    ∀ tcount, selLoop [] close keyf collectAll orders 0 tcount
      = ⟨[], 0, if collectAll then List.replicate tcount [] else []⟩ := by
  intro tcount
  induction tcount with
  | zero => match collectAll with
    | false => rfl
    | true => rfl
  | succ t ih =>
    unfold selLoop at ih ⊢
    rw [List.range_succ, List.foldl_append, ih, List.foldl_cons, List.foldl_nil]
    show ({ keep := _, bestSize := _, allMasks := _ } : SelState) = _
    rw [trialPass_nil]
    match collectAll with
    | false => rfl
    | true => simp [selStep, countTrue, List.replicate_succ']

/-! ### No trial after the first can improve the carried-over best -/

/-- Unfolding of the `keep_points` update of one trial iteration
(lines 114-117). -/
theorem selStep_keep (g : Grid) (close : ℕ → ℕ → Bool) (keyf : ℕ → ℤ × ℤ)
    (collectAll : Bool) (orders : ℕ → List (ℤ × ℤ)) (st : SelState) (t : ℕ) :
    (selStep g close keyf collectAll orders st t).keep
      = if st.bestSize < countTrue (trialPass g close keyf (orders t) st.keep)
        then trialPass g close keyf (orders t) st.keep else st.keep := rfl

/-- Unfolding of the `best_size` update of one trial iteration. -/
theorem selStep_bestSize (g : Grid) (close : ℕ → ℕ → Bool) (keyf : ℕ → ℤ × ℤ)
    (collectAll : Bool) (orders : ℕ → List (ℤ × ℤ)) (st : SelState) (t : ℕ) :
    (selStep g close keyf collectAll orders st t).bestSize
      = if st.bestSize < countTrue (trialPass g close keyf (orders t) st.keep)
        then countTrue (trialPass g close keyf (orders t) st.keep)
        else st.bestSize := rfl

/-- Peeling the last iteration off the trial loop. -/
theorem selLoop_succ (g : Grid) (close : ℕ → ℕ → Bool) (keyf : ℕ → ℤ × ℤ)
    (collectAll : Bool) (orders : ℕ → List (ℤ × ℤ)) (n t : ℕ) :
    selLoop g close keyf collectAll orders n (t + 1)
      = selStep g close keyf collectAll orders
        (selLoop g close keyf collectAll orders n t) t := by
  unfold selLoop
  rw [List.range_succ, List.foldl_append, List.foldl_cons, List.foldl_nil]

/-- After the first trial the loop state is frozen: trial 1 starts from the
all-retained mask and (for `n ≥ 1`) strictly improves `best_size = 0`, every
later trial starts from that very mask and can only lose points, so the
strict-improvement test at line 114 of the source never fires again. -/
theorem selLoop_first_dominates (g : Grid) (close : ℕ → ℕ → Bool)
    (keyf : ℕ → ℤ × ℤ) (collectAll : Bool) (orders : ℕ → List (ℤ × ℤ))
    (n : ℕ) (hn : 1 ≤ n) :
    ∀ t, 1 ≤ t →
    (selLoop g close keyf collectAll orders n t).keep
      = trialPass g close keyf (orders 0) (List.replicate n true) ∧
    (selLoop g close keyf collectAll orders n t).bestSize
      = countTrue (trialPass g close keyf (orders 0) (List.replicate n true)) := by
  have hpos : 0 < countTrue (trialPass g close keyf (orders 0)
      (List.replicate n true)) := by
    refine (countTrue_pos_iff _).mpr ?_
    exact hasTrue_trialPass g close keyf (orders 0) (List.replicate n true)
      ⟨0, getD_replicate_true n hn⟩
  intro t ht
  induction t, ht using Nat.le_induction with
  | base =>
    have hstep1 : selLoop g close keyf collectAll orders n 1
        = selStep g close keyf collectAll orders
          ⟨List.replicate n true, 0, []⟩ 0 := by
      have h0 : (0 : ℕ) + 1 = 1 := rfl
      rw [← h0, selLoop_succ]
      rfl
    have h0 : (⟨List.replicate n true, 0, []⟩ : SelState).bestSize = 0 := rfl
    have hk0 : (⟨List.replicate n true, 0, []⟩ : SelState).keep
        = List.replicate n true := rfl
    rw [hstep1, selStep_keep, selStep_bestSize, h0, hk0, if_pos hpos,
      if_pos hpos]
    exact ⟨rfl, rfl⟩
  | succ s hs ih =>
    obtain ⟨ihk, ihb⟩ := ih
    have hle : countTrue (trialPass g close keyf (orders s)
        (trialPass g close keyf (orders 0) (List.replicate n true)))
        ≤ countTrue (trialPass g close keyf (orders 0)
          (List.replicate n true)) :=
      countTrue_le _ _ (length_trialPass _ _ _ _ _)
        (maskLe_trialPass _ _ _ _ _)
    rw [selLoop_succ, selStep_keep, selStep_bestSize, ihk, ihb]
    have hnot : ¬ (countTrue (trialPass g close keyf (orders 0)
          (List.replicate n true))
        < countTrue (trialPass g close keyf (orders s)
          (trialPass g close keyf (orders 0) (List.replicate n true)))) := by
      omega
    rw [if_neg hnot, if_neg hnot]
    exact ⟨rfl, rfl⟩

/-! ### When no pair is within the thinning distance, a pass changes nothing -/

/-- If the suppression test fails for every valid pair of distinct points,
scanning a bucket of valid indices changes nothing. -/
theorem suppressScan_id (close : ℕ → ℕ → Bool) (n p1 : ℕ) (m : List Bool)
    (p2s : List ℕ)
    (hclose : ∀ q1 q2, q1 < n → q2 < n → q2 ≠ q1 → close q1 q2 = false)
    (hp1 : p1 < n) (hp2s : ∀ p2 ∈ p2s, p2 < n) :
    suppressScan close p1 m p2s = m := by
  refine foldl_eq_self _ p2s m (fun x b hb => ?_)
  dsimp only
  split
  · rename_i hcond
    rw [hclose p1 b hp1 (hp2s b hb) hcond.1]
    rfl
  · rfl

/-- Under the same hypothesis the whole 3×3 neighborhood scan of a valid
point changes nothing. -/
theorem processP1_id (keyf : ℕ → ℤ × ℤ) (close : ℕ → ℕ → Bool) (n : ℕ)
    (k1 : ℤ × ℤ) (p1 : ℕ) (m : List Bool)
    (hclose : ∀ q1 q2, q1 < n → q2 < n → q2 ≠ q1 → close q1 q2 = false)
    (hp1 : p1 < n) :
    processP1 (buildGrid keyf n) close k1 p1 m = m := by
  refine foldl_eq_self _ neighborOffsets m (fun x b _ => ?_)
  dsimp only
  split
  · exact suppressScan_id close n p1 x _ hclose hp1
      (fun p2 hp2 => mem_gridLookup_lt keyf n _ p2 hp2)
  · rfl

/-- Under the same hypothesis processing any cell changes nothing. -/
theorem processCell_id (keyf keyf2 : ℕ → ℤ × ℤ) (close : ℕ → ℕ → Bool)
    (n : ℕ) (m : List Bool) (cell : ℤ × ℤ)
    (hclose : ∀ q1 q2, q1 < n → q2 < n → q2 ≠ q1 → close q1 q2 = false) :
    processCell (buildGrid keyf n) close keyf2 m cell = m := by
  refine foldl_eq_self _ (gridLookup (buildGrid keyf n) cell) m
    (fun x b hb => ?_)
  dsimp only
  split
  · exact processP1_id keyf close n (keyf2 b) b x hclose
      (mem_gridLookup_lt keyf n cell b hb)
  · rfl

/-- Under the same hypothesis a whole trial pass is the identity. -/
theorem trialPass_id (keyf keyf2 : ℕ → ℤ × ℤ) (close : ℕ → ℕ → Bool)
    (n : ℕ) (order : List (ℤ × ℤ)) (m : List Bool)
    (hclose : ∀ q1 q2, q1 < n → q2 < n → q2 ≠ q1 → close q1 q2 = false) :
    trialPass (buildGrid keyf n) close keyf2 order m = m :=
  foldl_eq_self _ order m
    (fun x b _ => processCell_id keyf keyf2 close n x b hclose)

/-! ### Unfolding of the top-level result -/

/-- The operation always returns `.ok`, wrapping either the recorded
per-trial masks or the single best mask (lines 126-130). -/
theorem rh_eq (orc : DistOracles) (orders : ℕ → List (ℤ × ℤ))
    (inp : ThinInput) :
    rounding_hashing_thinning orc orders inp = Except.ok
      (if inp.all_trials then
        (selLoop (theGrid inp.coords inp.thin_dist) (closeOf orc inp)
          (keyfOf inp.coords inp.thin_dist) inp.all_trials orders
          inp.coords.length inp.trials.toNat).allMasks
       else [(selLoop (theGrid inp.coords inp.thin_dist) (closeOf orc inp)
          (keyfOf inp.coords inp.thin_dist) inp.all_trials orders
          inp.coords.length inp.trials.toNat).keep]) := rfl

/-! ### The claims -/

/-- Claim C2: for every starting mask, a single trial pass is monotonically
non-increasing on the retained set: every point marked not-retained in the
starting mask is still not-retained in the pass's output mask, and the
output's retained-count is at most the starting mask's retained-count. -/
theorem trial_pass_monotone (g : Grid) (close : ℕ → ℕ → Bool)
    (keyf : ℕ → ℤ × ℤ) (order : List (ℤ × ℤ)) (mask : List Bool) (i : ℕ)
    (h : mask.getD i false = false) :
    (trialPass g close keyf order mask).getD i false = false ∧
    countTrue (trialPass g close keyf order mask) ≤ countTrue mask := by
  constructor
  · cases hout : (trialPass g close keyf order mask).getD i false with
    | false => rfl
    | true =>
      have hmask := maskLe_trialPass g close keyf order mask i hout
      rw [h] at hmask
      exact absurd hmask (by decide)
  · exact countTrue_le _ _ (length_trialPass _ _ _ _ _)
      (maskLe_trialPass _ _ _ _ _)

theorem trial_pass_monotone_witness :
    ([true, false] : List Bool).getD 1 false = false ∧
    ((trialPass [(((0 : ℤ), (0 : ℤ)), [0, 1])] (fun _ _ => true)
        (fun _ => ((0 : ℤ), (0 : ℤ))) [((0 : ℤ), (0 : ℤ))]
        [true, false]).getD 1 false = false ∧
      countTrue (trialPass [(((0 : ℤ), (0 : ℤ)), [0, 1])] (fun _ _ => true)
        (fun _ => ((0 : ℤ), (0 : ℤ))) [((0 : ℤ), (0 : ℤ))]
        [true, false]) ≤ countTrue [true, false]) :=
  ⟨by decide, trial_pass_monotone [(((0 : ℤ), (0 : ℤ)), [0, 1])]
    (fun _ _ => true) (fun _ => ((0 : ℤ), (0 : ℤ))) [((0 : ℤ), (0 : ℤ))]
    [true, false] 1 (by decide)⟩

/-- Claim C6: grid construction computes `precision = thinDistance / 111.32`
(the precision and the grid take no metric input, mirroring lines 37-48 which
use none), assigns every point `i` the cell key
`(round(x_i / precision), round(y_i / precision))`, and each bucket holds
exactly the indices mapped to its key, in increasing original-index order. -/
theorem grid_construction (coords : List (ℚ × ℚ)) (td : ℚ) (k : ℤ × ℤ) :
    precisionOf td = td / (11132 / 100) ∧
    gridLookup (theGrid coords td) k
      = (List.range coords.length).filter
          (fun i => decide (cellKey (precisionOf td)
            (coords.getD i ((0 : ℚ), (0 : ℚ))) = k)) ∧
    List.Pairwise (· < ·) (gridLookup (theGrid coords td) k) := by
  refine ⟨rfl, ?_, ?_⟩
  · exact gridLookup_buildGrid (keyfOf coords td) coords.length k
  · unfold theGrid
    rw [gridLookup_buildGrid]
    exact List.Pairwise.filter _ (List.pairwise_lt_range _)

/-- Claim C9: every mask the operation returns — the single best mask, and
each per-trial mask when `all_trials` is set — has exactly `n` entries. -/
theorem mask_length_invariant (orc : DistOracles)
    (orders : ℕ → List (ℤ × ℤ)) (inp : ThinInput) (v : List (List Bool))
    (m : List Bool)
    (hv : rounding_hashing_thinning orc orders inp = Except.ok v)
    (hm : m ∈ v) : m.length = inp.coords.length := by
  obtain ⟨hk, hall⟩ := selLoop_inv (theGrid inp.coords inp.thin_dist)
    (closeOf orc inp) (keyfOf inp.coords inp.thin_dist) inp.all_trials orders
    inp.coords.length inp.trials.toNat
    (fun mm => mm.length = inp.coords.length) (List.length_replicate _ _)
    (fun mm order hmm => (length_trialPass _ _ _ _ _).trans hmm)
  rw [rh_eq] at hv
  have hveq := Except.ok.inj hv
  rw [← hveq] at hm
  match hq : inp.all_trials with
  | true =>
    rw [hq] at hm hall
    simp only [if_true] at hm
    exact hall m hm
  | false =>
    rw [hq] at hm hk
    simp only [Bool.false_eq_true, if_false] at hm
    rw [List.mem_singleton.mp hm]
    exact hk

/-- Claim C10: for `n ≥ 1`, suppression always happens on behalf of a point
that is itself still retained, so every returned mask keeps at least one
point retained. -/
theorem retained_count_positive (orc : DistOracles)
    (orders : ℕ → List (ℤ × ℤ)) (inp : ThinInput) (v : List (List Bool))
    (m : List Bool) (hn : 1 ≤ inp.coords.length)
    (hv : rounding_hashing_thinning orc orders inp = Except.ok v)
    (hm : m ∈ v) : 1 ≤ countTrue m := by
  obtain ⟨hk, hall⟩ := selLoop_inv (theGrid inp.coords inp.thin_dist)
    (closeOf orc inp) (keyfOf inp.coords inp.thin_dist) inp.all_trials orders
    inp.coords.length inp.trials.toNat HasTrue
    ⟨0, getD_replicate_true _ hn⟩
    (fun mm order hmm => hasTrue_trialPass _ _ _ _ mm hmm)
  rw [rh_eq] at hv
  have hveq := Except.ok.inj hv
  rw [← hveq] at hm
  match hq : inp.all_trials with
  | true =>
    rw [hq] at hm hall
    simp only [if_true] at hm
    exact (countTrue_pos_iff m).mpr (hall m hm)
  | false =>
    rw [hq] at hm hk
    simp only [Bool.false_eq_true, if_false] at hm
    rw [List.mem_singleton.mp hm]
    exact (countTrue_pos_iff _).mpr hk

/-- Claim C8: an empty input (`n = 0`) with a positive trial count returns an
empty mask (or, when `all_trials` is set, a list of empty masks, one per
trial) and raises no error. -/
theorem empty_input_ok (orc : DistOracles) (orders : ℕ → List (ℤ × ℤ))
    (inp : ThinInput) (hc : inp.coords = []) (htr : 1 ≤ inp.trials) :
    rounding_hashing_thinning orc orders inp
      = Except.ok (if inp.all_trials then
          List.replicate inp.trials.toNat [] else [[]]) := by
  rw [rh_eq, hc]
  have hg : theGrid [] inp.thin_dist = ([] : Grid) := rfl
  rw [hg, List.length_nil, selLoop_nil]
  cases hq : inp.all_trials <;> simp [hq]

theorem empty_input_ok_witness :
    rounding_hashing_thinning ⟨fun _ _ _ _ _ => 0, fun _ _ _ _ => 0⟩
      (fun _ => []) ⟨[], 1, 3, true, "haversine", 6371, 0⟩
      = Except.ok (if (⟨[], 1, 3, true, "haversine", 6371, 0⟩ :
          ThinInput).all_trials then
          List.replicate ((⟨[], 1, 3, true, "haversine", 6371, 0⟩ :
            ThinInput).trials).toNat [] else [[]]) :=
  empty_input_ok ⟨fun _ _ _ _ _ => 0, fun _ _ _ _ => 0⟩ (fun _ => [])
    ⟨[], 1, 3, true, "haversine", 6371, 0⟩ rfl (by decide)

/-- Claim C5: the operation is deterministic — with the per-trial
cell-visitation orders a fixed function of the seed (as produced by the
seeded `std::mt19937`), two runs on equal inputs produce equal outputs; the
embedding is a pure function of the inputs, the parameters and the seed. -/
theorem determinism (shuffle : ℤ → ℕ → List (ℤ × ℤ)) (orc : DistOracles)
    (inp1 inp2 : ThinInput) (h : inp1 = inp2) :
    rhSeeded shuffle orc inp1 = rhSeeded shuffle orc inp2 := by
  rw [h]

theorem determinism_witness :
    (⟨[((0 : ℚ), (0 : ℚ))], 1, 1, false, "haversine", 6371, 5⟩ : ThinInput)
      = ⟨[((0 : ℚ), (0 : ℚ))], 1, 1, false, "haversine", 6371, 5⟩ ∧
    rhSeeded (fun _ _ => [((0 : ℤ), (0 : ℤ))])
      ⟨fun _ _ _ _ _ => 0, fun _ _ _ _ => 0⟩
      ⟨[((0 : ℚ), (0 : ℚ))], 1, 1, false, "haversine", 6371, 5⟩
      = rhSeeded (fun _ _ => [((0 : ℤ), (0 : ℤ))])
        ⟨fun _ _ _ _ _ => 0, fun _ _ _ _ => 0⟩
        ⟨[((0 : ℚ), (0 : ℚ))], 1, 1, false, "haversine", 6371, 5⟩ :=
  ⟨rfl, determinism (fun _ _ => [((0 : ℤ), (0 : ℤ))])
    ⟨fun _ _ _ _ _ => 0, fun _ _ _ _ => 0⟩
    ⟨[((0 : ℚ), (0 : ℚ))], 1, 1, false, "haversine", 6371, 5⟩
    ⟨[((0 : ℚ), (0 : ℚ))], 1, 1, false, "haversine", 6371, 5⟩ rfl⟩

/-- Claim C1: for `n ≥ 1` points and `trialCount ≥ 1`, the single-best result
(`all_trials` unset) is exactly the first trial's mask started from the
all-retained mask (so its retained-count equals that trial's retained-count),
and after the first trial fixes its nonzero `best_size` the loop state is
frozen: at every trial index `t ≥ 1` the carried mask and `best_size` are
still the first trial's, so no later trial triggers a replacement. -/
theorem first_trial_dominance (orc : DistOracles)
    (orders : ℕ → List (ℤ × ℤ)) (inp : ThinInput) (t : ℕ)
    (hn : 1 ≤ inp.coords.length) (htr : 1 ≤ inp.trials)
    (hall : inp.all_trials = false) (ht1 : 1 ≤ t)
    (ht2 : t ≤ inp.trials.toNat) :
    rounding_hashing_thinning orc orders inp
      = Except.ok [firstTrial orc orders inp] ∧
    (selLoop (theGrid inp.coords inp.thin_dist) (closeOf orc inp)
      (keyfOf inp.coords inp.thin_dist) inp.all_trials orders
      inp.coords.length t).keep = firstTrial orc orders inp ∧
    (selLoop (theGrid inp.coords inp.thin_dist) (closeOf orc inp)
      (keyfOf inp.coords inp.thin_dist) inp.all_trials orders
      inp.coords.length t).bestSize
      = countTrue (firstTrial orc orders inp) := by
  have hdom := selLoop_first_dominates (theGrid inp.coords inp.thin_dist)
    (closeOf orc inp) (keyfOf inp.coords inp.thin_dist) inp.all_trials orders
    inp.coords.length hn
  have htn : 1 ≤ inp.trials.toNat := by omega
  refine ⟨?_, (hdom t ht1).1, (hdom t ht1).2⟩
  rw [rh_eq, hall]
  have hkeep := (hdom inp.trials.toNat htn).1
  rw [hall] at hkeep
  rw [hkeep]
  rfl

theorem first_trial_dominance_witness :
    rounding_hashing_thinning c1orc c1orders c1inp
      = Except.ok [firstTrial c1orc c1orders c1inp] ∧
    (selLoop (theGrid c1inp.coords c1inp.thin_dist) (closeOf c1orc c1inp)
      (keyfOf c1inp.coords c1inp.thin_dist) c1inp.all_trials c1orders
      c1inp.coords.length 1).keep = firstTrial c1orc c1orders c1inp ∧
    (selLoop (theGrid c1inp.coords c1inp.thin_dist) (closeOf c1orc c1inp)
      (keyfOf c1inp.coords c1inp.thin_dist) c1inp.all_trials c1orders
      c1inp.coords.length 1).bestSize
      = countTrue (firstTrial c1orc c1orders c1inp) :=
  first_trial_dominance c1orc c1orders c1inp 1 (by decide) (by decide) rfl
    (by decide) (by decide)

/-- Claim C7: when every pair of distinct points is separated by a distance
strictly greater than `thin_dist` under the selected metric, the returned
single-best mask is all-`true`, for every trial count and every
cell-visitation order (hence every seed). -/
theorem all_far_all_retained (orc : DistOracles)
    (orders : ℕ → List (ℤ × ℤ)) (inp : ThinInput)
    (hall : inp.all_trials = false)
    (hfar : ∀ p1 p2, p1 < inp.coords.length → p2 < inp.coords.length →
      p1 ≠ p2 → inp.thin_dist < distanceOf orc inp p1 p2) :
    rounding_hashing_thinning orc orders inp
      = Except.ok [List.replicate inp.coords.length true] := by
  have hclose : ∀ q1 q2, q1 < inp.coords.length → q2 < inp.coords.length →
      q2 ≠ q1 → closeOf orc inp q1 q2 = false := by
    intro q1 q2 h1 h2 hne
    exact decide_eq_false (not_le.mpr (hfar q1 q2 h1 h2 (Ne.symm hne)))
  have hstep : ∀ (m : List Bool) (order : List (ℤ × ℤ)),
      m = List.replicate inp.coords.length true →
      trialPass (theGrid inp.coords inp.thin_dist) (closeOf orc inp)
        (keyfOf inp.coords inp.thin_dist) order m
        = List.replicate inp.coords.length true := by
    intro m order hm
    rw [hm]
    exact trialPass_id (keyfOf inp.coords inp.thin_dist)
      (keyfOf inp.coords inp.thin_dist) (closeOf orc inp) inp.coords.length
      order (List.replicate inp.coords.length true) hclose
  obtain ⟨hk, _⟩ := selLoop_inv (theGrid inp.coords inp.thin_dist)
    (closeOf orc inp) (keyfOf inp.coords inp.thin_dist) inp.all_trials orders
    inp.coords.length inp.trials.toNat
    (fun mm => mm = List.replicate inp.coords.length true) rfl hstep
  rw [rh_eq, hall]
  rw [hall] at hk
  rw [hk]
  rfl

theorem all_far_all_retained_witness :
    rounding_hashing_thinning c7orc c7orders c7inp
      = Except.ok [List.replicate c7inp.coords.length true] :=
  all_far_all_retained c7orc c7orders c7inp rfl
    (fun p1 p2 _ _ _ => by norm_num [distanceOf, c7orc, c7inp])

/-- Claim C3, counterexample: with the unrecognized metric string
`"manhattan"` the operation does not fail — it returns a normal `.ok`
result (lines 94-98 fall back to `euclideanDistance` for every
non-`"haversine"` string; no error path exists). -/
theorem metric_fallback_counterexample :
    c3inp.distance_metric ≠ "haversine" ∧
    rounding_hashing_thinning c3orc c3orders c3inp = Except.ok [[true]] := by
  constructor
  · decide
  · rfl

/-- Claim C3, amended: for every metric selector string other than
`"haversine"`, the operation silently uses the euclidean distance function —
its result is identical to the result with the metric string
`"euclidean"` — instead of failing with an error. -/
theorem metric_fallback_to_euclidean (orc : DistOracles)
    (orders : ℕ → List (ℤ × ℤ)) (coords : List (ℚ × ℚ)) (td : ℚ) (tr : ℤ)
    (allt : Bool) (mstr : String) (R0 : ℚ) (sd : ℤ)
    (hm : mstr ≠ "haversine") :
    rounding_hashing_thinning orc orders ⟨coords, td, tr, allt, mstr, R0, sd⟩
      = rounding_hashing_thinning orc orders
        ⟨coords, td, tr, allt, "euclidean", R0, sd⟩ := by
  unfold rounding_hashing_thinning
  have hclose : closeOf orc ⟨coords, td, tr, allt, mstr, R0, sd⟩
      = closeOf orc ⟨coords, td, tr, allt, "euclidean", R0, sd⟩ := by
    funext p1 p2
    simp only [closeOf, distanceOf]
    rw [if_neg hm, if_neg (by decide : ¬ ("euclidean" = "haversine"))]
  rw [hclose]

theorem metric_fallback_to_euclidean_witness :
    "manhattan" ≠ "haversine" ∧
    rounding_hashing_thinning c3orc c3orders
      ⟨[((0 : ℚ), (0 : ℚ))], 1, 1, false, "manhattan", 6371, 42⟩
      = rounding_hashing_thinning c3orc c3orders
        ⟨[((0 : ℚ), (0 : ℚ))], 1, 1, false, "euclidean", 6371, 42⟩ :=
  ⟨by decide, metric_fallback_to_euclidean c3orc c3orders
    [((0 : ℚ), (0 : ℚ))] 1 1 false "manhattan" 6371 42 (by decide)⟩

/-- Claim C4, counterexample: an input with non-positive `thin_dist`,
non-positive trial count and non-positive sphere radius is accepted without
any validation failure — the operation returns a normal `.ok` result
(the source performs no input validation at all). -/
theorem no_validation_counterexample :
    c4inp.thin_dist ≤ 0 ∧ c4inp.trials ≤ 0 ∧ c4inp.R ≤ 0 ∧
    rounding_hashing_thinning c4orc c4orders c4inp = Except.ok [[true]] := by
  refine ⟨by decide, by decide, by decide, by rfl⟩

/-- Claim C4, amended: the operation performs no input validation and never
surfaces an error: every input — including non-positive `thin_dist`, trial
count or sphere radius — produces a normal `.ok` result; in particular a
non-positive trial count simply runs zero trials and returns the initial
all-retained mask (or an empty list of trials when `all_trials` is set). -/
theorem no_validation_never_errors (orc : DistOracles)
    (orders : ℕ → List (ℤ × ℤ)) (inp : ThinInput) :
    (∃ v, rounding_hashing_thinning orc orders inp = Except.ok v) ∧
    (inp.trials ≤ 0 → rounding_hashing_thinning orc orders inp
      = Except.ok (if inp.all_trials then []
          else [List.replicate inp.coords.length true])) := by
  constructor
  · exact ⟨_, rh_eq orc orders inp⟩
  · intro h
    rw [rh_eq]
    have h0 : inp.trials.toNat = 0 := Int.toNat_of_nonpos h
    rw [h0]
    have hsel : selLoop (theGrid inp.coords inp.thin_dist) (closeOf orc inp)
        (keyfOf inp.coords inp.thin_dist) inp.all_trials orders
        inp.coords.length 0
        = ⟨List.replicate inp.coords.length true, 0, []⟩ := rfl
    rw [hsel]

theorem no_validation_never_errors_witness :
    c4inp.trials ≤ 0 ∧
    ((∃ v, rounding_hashing_thinning c4orc c4orders c4inp = Except.ok v) ∧
     (c4inp.trials ≤ 0 → rounding_hashing_thinning c4orc c4orders c4inp
        = Except.ok (if c4inp.all_trials then []
            else [List.replicate c4inp.coords.length true]))) :=
  ⟨by decide, no_validation_never_errors c4orc c4orders c4inp⟩

theorem mask_length_invariant_witness :
    ([true] : List Bool).length = c9inp.coords.length :=
  mask_length_invariant c9orc c9orders c9inp [[true]] [true] rfl
    (by decide)

theorem retained_count_positive_witness :
    1 ≤ countTrue [true] :=
  retained_count_positive c10orc c10orders c10inp [[true]] [true] (by decide)
    rfl (by decide)

end GeoThinneR
